import Mathlib

/-!
Verification development for the in-memory blog-post store
(`internal/domain/entities/post.go`,
`internal/infrastructure/repositories/memory_post_repository.go`,
`internal/application/services/post_service.go`).

Go strings are modelled as lists of Unicode scalar values (`Str`).
`strings.TrimSpace` trims the Unicode white-space characters recognised by
`unicode.IsSpace`; Go's `len` on a string counts UTF-8 bytes, modelled by
`utf8Len`.  Go `int` is modelled by `Int` (the claims never exercise
64-bit overflow).  A Go map is modelled as an association list with
unique keys; map iteration order (which Go leaves unspecified) only feeds
a sort, whose result on distinct keys is order-independent.
-/

/-- Go strings as lists of Unicode scalar values. -/
abbrev Str := List Char

/-- The Unicode white-space test used by Go's `unicode.IsSpace`:
Latin-1 cases '\t' '\n' '\v' '\f' '\r' ' ' U+0085 U+00A0, plus the
White_Space code points U+1680, U+2000..U+200A, U+2028, U+2029,
U+202F, U+205F, U+3000. -/
def goIsSpace (ch : Char) : Bool :=
  let n := ch.toNat
  n == 0x9 || n == 0xA || n == 0xB || n == 0xC || n == 0xD || n == 0x20 ||
  n == 0x85 || n == 0xA0 || n == 0x1680 || (0x2000 ≤ n && n ≤ 0x200A) ||
  n == 0x2028 || n == 0x2029 || n == 0x202F || n == 0x205F || n == 0x3000

/-- Go `strings.TrimSpace`: drop white space from both ends. -/
def trimSpace (s : Str) : Str :=
  ((s.dropWhile goIsSpace).reverse.dropWhile goIsSpace).reverse

/-- UTF-8 byte count of one Unicode scalar value. -/
def charUtf8Size (c : Char) : Nat :=
  if c.toNat < 0x80 then 1
  else if c.toNat < 0x800 then 2
  else if c.toNat < 0x10000 then 3
  else 4

/-- Go `len` on a string: total UTF-8 byte count. -/
def utf8Len (s : Str) : Nat :=
  (s.map charUtf8Size).sum

/-- The `Post` entity of `internal/domain/entities/post.go`. -/
structure Post where
  id : Int
  title : Str
  content : Str
  author : Str
deriving DecidableEq

/-- `(*Post).Validate` of `post.go`: blank-after-trim checks on title,
content, author in that order, then the byte-length check on the raw
title. -/
def Post.Validate (p : Post) : Option String :=
  if trimSpace p.title = [] then some "title is required"
  else if trimSpace p.content = [] then some "content is required"
  else if trimSpace p.author = [] then some "author is required"
  else if utf8Len p.title > 255 then some "title must be less than 255 characters"
  else none

/-- `entities.NewPost` of `post.go`: build the record, validate, return
it or the validation error. -/
def NewPost (id : Int) (title content author : Str) : Except String Post :=
  match Post.Validate ⟨id, title, content, author⟩ with
  | some e => Except.error e
  | none => Except.ok ⟨id, title, content, author⟩

/-- `(*Post).Update` of `post.go`: validate a temporary record carrying
the prospective state; on failure return the error and leave the
receiver unchanged, on success overwrite the three fields.  The first
component of the result is the receiver after the call, the second the
returned error. -/
def Post.Update (p : Post) (title content author : Str) : Post × Option String :=
  match Post.Validate ⟨p.id, title, content, author⟩ with
  | some e => (p, some e)
  | none => (⟨p.id, title, content, author⟩, none)

/-- Decidable equality on `Except`, for evaluating results of fallible
operations on concrete inputs. -/
def exceptDecEq {ε α : Type} [DecidableEq ε] [DecidableEq α] :
    DecidableEq (Except ε α) := fun x y =>
  match x, y with
  | Except.error a, Except.error b =>
    if h : a = b then isTrue (by rw [h])
    else isFalse (by intro hc; injection hc; contradiction)
  | Except.error _, Except.ok _ => isFalse (by intro hc; exact Except.noConfusion hc)
  | Except.ok _, Except.error _ => isFalse (by intro hc; exact Except.noConfusion hc)
  | Except.ok a, Except.ok b =>
    if h : a = b then isTrue (by rw [h])
    else isFalse (by intro hc; injection hc; contradiction)

instance {ε α : Type} [DecidableEq ε] [DecidableEq α] :
    DecidableEq (Except ε α) :=
  exceptDecEq

/-- Error value `repositories.ErrPostNotFound`. -/
def ErrPostNotFound : String := "post not found"

/-- Error value `repositories.ErrPostExists`. -/
def ErrPostExists : String := "post already exists"

/-- Lookup in the association-list model of a Go map. -/
def mapLookup {α : Type} : List (Int × α) → Int → Option α
  | [], _ => none
  | (k, v) :: rest, k' => if k = k' then some v else mapLookup rest k'

/-- Insert-or-overwrite in the association-list model of a Go map. -/
def mapInsert {α : Type} : List (Int × α) → Int → α → List (Int × α)
  | [], k, v => [(k, v)]
  | (k', v') :: rest, k, v =>
    if k' = k then (k, v) :: rest else (k', v') :: mapInsert rest k v

/-- Deletion in the association-list model of a Go map. -/
def mapErase {α : Type} : List (Int × α) → Int → List (Int × α)
  | [], _ => []
  | (k', v') :: rest, k => if k' = k then rest else (k', v') :: mapErase rest k

/-- The keys of the association-list model of a Go map. -/
def mapKeys {α : Type} (m : List (Int × α)) : List Int :=
  m.map Prod.fst

/-- State of `MemoryPostRepository`: the `posts` map and the `nextID`
counter.  The mutex only serialises the operations and has no effect on
the sequential state transformer modelled here. -/
structure MemoryPostRepository where
  posts : List (Int × Post)
  nextID : Int
deriving DecidableEq

/-- `NewMemoryPostRepository`: empty map, counter starts at 1. -/
def NewMemoryPostRepository : MemoryPostRepository :=
  ⟨[], 1⟩

/-- `(*MemoryPostRepository).Create` (explicit-ID insertion): fail if the
ID is present, otherwise store a copy and advance `nextID` when the
inserted ID reaches it. -/
def MemoryPostRepository.Create (r : MemoryPostRepository) (post : Post) :
    Option String × MemoryPostRepository :=
  match mapLookup r.posts post.id with
  | some _ => (some ErrPostExists, r)
  | none =>
    if post.id ≥ r.nextID
    then (none, ⟨mapInsert r.posts post.id post, post.id + 1⟩)
    else (none, ⟨mapInsert r.posts post.id post, r.nextID⟩)

/-- `(*MemoryPostRepository).CreatePost` (generated-ID insertion): take
`nextID` and increment it, then construct and validate the entity; on
validation failure the incremented counter is kept (the receiver was
already mutated), on success a copy is stored and a copy returned. -/
def MemoryPostRepository.CreatePost (r : MemoryPostRepository)
    (title content author : Str) :
    Except String Post × MemoryPostRepository :=
  match NewPost r.nextID title content author with
  | Except.error e => (Except.error e, ⟨r.posts, r.nextID + 1⟩)
  | Except.ok post => (Except.ok post, ⟨mapInsert r.posts post.id post, r.nextID + 1⟩)

/-- `(*MemoryPostRepository).GetByID`: read-only lookup returning a copy
of the stored post or `ErrPostNotFound`. -/
def MemoryPostRepository.GetByID (r : MemoryPostRepository) (id : Int) :
    Except String Post :=
  match mapLookup r.posts id with
  | none => Except.error ErrPostNotFound
  | some post => Except.ok post

/-- The by-ID ordering used by `GetAll`'s sort. -/
def idLE (p q : Post) : Prop := p.id ≤ q.id

instance : DecidableRel idLE := fun p q => Int.decLe p.id q.id

instance : IsTotal Post idLE := ⟨fun a b => Int.le_total a.id b.id⟩

instance : IsTrans Post idLE := ⟨fun _ _ _ h1 h2 => Int.le_trans h1 h2⟩

/-- `(*MemoryPostRepository).GetAll`: copy every stored post and sort by
ID ascending.  Go iterates the map in unspecified order and then runs
`sort.Slice` with the comparator `ID i < ID j`; on the distinct keys of a
map the sorted result is the unique by-ID-ascending arrangement, modelled
here by an insertion sort over the association list's values. -/
def MemoryPostRepository.GetAll (r : MemoryPostRepository) : List Post :=
  List.insertionSort idLE (r.posts.map Prod.snd)

/-- `(*MemoryPostRepository).Update`: fail with `ErrPostNotFound` when
the id is absent; otherwise store a copy of the supplied post with its
`ID` field forced to the given id. -/
def MemoryPostRepository.Update (r : MemoryPostRepository) (id : Int)
    (post : Post) : Option String × MemoryPostRepository :=
  match mapLookup r.posts id with
  | none => (some ErrPostNotFound, r)
  | some _ =>
    (none, ⟨mapInsert r.posts id ⟨id, post.title, post.content, post.author⟩, r.nextID⟩)

/-- `(*MemoryPostRepository).Delete`: fail with `ErrPostNotFound` when
the id is absent, otherwise remove the entry (the counter is not
touched). -/
def MemoryPostRepository.Delete (r : MemoryPostRepository) (id : Int) :
    Option String × MemoryPostRepository :=
  match mapLookup r.posts id with
  | none => (some ErrPostNotFound, r)
  | some _ => (none, ⟨mapErase r.posts id, r.nextID⟩)

/-- `(*MemoryPostRepository).Exists`: pure membership check. -/
def MemoryPostRepository.Exists (r : MemoryPostRepository) (id : Int) : Bool :=
  (mapLookup r.posts id).isSome

/-- One iteration of the loop in `(*MemoryPostRepository).LoadData`:
store a copy of the post, then advance `nextID` when the post's ID
reaches it. -/
def loadDataStep (r : MemoryPostRepository) (post : Post) : MemoryPostRepository :=
  if post.id ≥ r.nextID
  then ⟨mapInsert r.posts post.id post, post.id + 1⟩
  else ⟨mapInsert r.posts post.id post, r.nextID⟩

/-- `(*MemoryPostRepository).LoadData`: insert every post of the batch
(overwriting at equal IDs), advancing `nextID` past each inserted ID;
always returns a nil error. -/
def MemoryPostRepository.LoadData (r : MemoryPostRepository)
    (posts : List Post) : Option String × MemoryPostRepository :=
  (none, posts.foldl loadDataStep r)

/-- `(*PostService).UpdatePost` of `post_service.go`: fetch a copy of the
existing post, apply the entity-level `Update` to that copy, and persist
through the repository's `Update` only when entity validation passed.
Logging is state-free and omitted. -/
def PostService.UpdatePost (r : MemoryPostRepository) (id : Int)
    (title content author : Str) :
    Except String Post × MemoryPostRepository :=
  match r.GetByID id with
  | Except.error e => (Except.error e, r)
  | Except.ok existingPost =>
    match existingPost.Update title content author with
    | (_, some e) => (Except.error e, r)
    | (updated, none) =>
      match r.Update id updated with
      | (some e, r1) => (Except.error e, r1)
      | (none, r1) => (Except.ok updated, r1)

/-- The validation order as the specification states it: a list of
(rule, message) pairs tried in order — blank-after-trim on title,
content, author, then the 255-byte length rule on the raw title — the
message of the first violated rule is returned. -/
def firstViolated : List (Bool × String) → Option String
  | [] => none
  | (b, msg) :: rest => if b then some msg else firstViolated rest

/-- Validation as described by the specification's words, for comparison
with `Post.Validate` (which is translated from the code). -/
def ValidateSpec (p : Post) : Option String :=
  firstViolated
    [ (decide (trimSpace p.title = []), "title is required"),
      (decide (trimSpace p.content = []), "content is required"),
      (decide (trimSpace p.author = []), "author is required"),
      (decide (utf8Len p.title > 255), "title must be less than 255 characters") ]

/-- The state-changing repository operations, for reasoning about every
store reachable from `NewMemoryPostRepository`. -/
inductive Op where
  | createGen : Str → Str → Str → Op
  | createExp : Post → Op
  | updateOp : Int → Post → Op
  | deleteOp : Int → Op
  | bulkLoad : List Post → Op
deriving DecidableEq

/-- Apply one repository operation to the store, keeping the state and
discarding the returned value. -/
def applyOp (r : MemoryPostRepository) : Op → MemoryPostRepository
  | Op.createGen t c a => (r.CreatePost t c a).2
  | Op.createExp p => (r.Create p).2
  | Op.updateOp id p => (r.Update id p).2
  | Op.deleteOp id => (r.Delete id).2
  | Op.bulkLoad ps => (r.LoadData ps).2

/-- Run a sequence of repository operations from the initial store. -/
def runOps (ops : List Op) : MemoryPostRepository :=
  ops.foldl applyOp NewMemoryPostRepository

/-- Counter invariant: `nextID` strictly exceeds every key of the map. -/
def KeysBelow (r : MemoryPostRepository) : Prop :=
  ∀ k ∈ mapKeys r.posts, k < r.nextID

instance (r : MemoryPostRepository) : Decidable (KeysBelow r) :=
  List.decidableBAll _ _

/-- Map well-formedness: keys are distinct and every stored post's `ID`
field equals its key (every insertion in the source keys a post by its
own `ID`, or forces the field to the key). -/
def WFMap (r : MemoryPostRepository) : Prop :=
  (mapKeys r.posts).Nodup ∧ ∀ pr ∈ r.posts, (Prod.snd pr).id = Prod.fst pr

/-!
Pointer-level model for the copy-on-access claim.  The repository stores
`*Post` pointers (`r.posts[id] = &postCopy`); whether a caller can reach
store-internal state through a pointer is a heap property, so here the
heap is explicit: addresses are naturals, allocation (`postCopy := *post`
followed by taking `&postCopy`) returns the next fresh address, and the
caller's capability is the set of addresses handed out by the store.  A
caller mutation (`post.Title = ...` on a `*Post` it holds) is a heap
write at one of those addresses.
-/

/-- The heap: contents of every address (addresses are naturals) plus
the allocation frontier. -/
structure Heap where
  mem : Nat → Post
  next : Nat

/-- Dereference a `*Post`. -/
def Heap.read (h : Heap) (a : Nat) : Post :=
  h.mem a

/-- Assign through a `*Post` (no allocation). -/
def Heap.write (h : Heap) (a : Nat) (p : Post) : Heap :=
  ⟨fun x => if x = a then p else h.mem x, h.next⟩

/-- `postCopy := v; &postCopy`: allocate a fresh cell holding `v`. -/
def Heap.alloc (h : Heap) (v : Post) : Nat × Heap :=
  (h.next, ⟨fun x => if x = h.next then v else h.mem x, h.next + 1⟩)

/-- Allocate a fresh cell per value, in order (the copies `GetAll`
makes). -/
def Heap.allocList (h : Heap) : List Post → List Nat × Heap
  | [] => ([], h)
  | v :: vs =>
    let (a, h1) := h.alloc v
    let (as1, h2) := h1.allocList vs
    (a :: as1, h2)

/-- Repository state at pointer level: the map holds addresses of the
store-owned copies. -/
structure PtrRepo where
  posts : List (Int × Nat)
  nextID : Int

/-- A configuration: the heap, the repository, and the addresses the
caller legitimately holds (received from the store; Go callers cannot
forge pointers to store internals). -/
structure Config where
  heap : Heap
  repo : PtrRepo
  caller : List Nat

/-- The initial configuration: empty store, empty heap, no caller
pointers. -/
def initConfig : Config :=
  ⟨⟨fun _ => ⟨0, [], [], []⟩, 0⟩, ⟨[], 1⟩, []⟩

/-- `GetByID` at pointer level: on a hit, copy the stored post into a
fresh cell and hand that address to the caller. -/
def PtrGetByID (cfg : Config) (id : Int) : Option Nat × Config :=
  match mapLookup cfg.repo.posts id with
  | none => (none, cfg)
  | some a =>
    let (a1, h1) := cfg.heap.alloc (cfg.heap.read a)
    (some a1, ⟨h1, cfg.repo, a1 :: cfg.caller⟩)

/-- `GetAll` at pointer level: copy every stored post into fresh cells
(sorted by ID as in the source; the order is irrelevant to aliasing) and
hand all those addresses to the caller. -/
def PtrGetAll (cfg : Config) : List Nat × Config :=
  let vs := List.insertionSort idLE (cfg.repo.posts.map (fun pr => cfg.heap.read pr.2))
  let (as1, h1) := cfg.heap.allocList vs
  (as1, ⟨h1, cfg.repo, as1 ++ cfg.caller⟩)

/-- `CreatePost` at pointer level: allocate the ID, validate; on success
store the address of one fresh copy and return the address of a second
fresh copy. -/
def PtrCreatePost (cfg : Config) (title content author : Str) :
    Option Nat × Config :=
  let id := cfg.repo.nextID
  let repo1 : PtrRepo := ⟨cfg.repo.posts, id + 1⟩
  match NewPost id title content author with
  | Except.error _ => (none, ⟨cfg.heap, repo1, cfg.caller⟩)
  | Except.ok post =>
    let (ai, h1) := cfg.heap.alloc post
    let (ar, h2) := h1.alloc post
    (some ar, ⟨h2, ⟨mapInsert repo1.posts post.id ai, repo1.nextID⟩, ar :: cfg.caller⟩)

/-- `Create` at pointer level: the caller passes a `*Post` it holds; the
store dereferences it and keeps its own fresh copy. -/
def PtrCreate (cfg : Config) (ca : Nat) : Config :=
  let post := cfg.heap.read ca
  match mapLookup cfg.repo.posts post.id with
  | some _ => cfg
  | none =>
    let (ai, h1) := cfg.heap.alloc post
    let nid := if post.id ≥ cfg.repo.nextID then post.id + 1 else cfg.repo.nextID
    ⟨h1, ⟨mapInsert cfg.repo.posts post.id ai, nid⟩, cfg.caller⟩

/-- Store-level `Update` at pointer level: dereference the caller's
pointer, store a fresh copy with the `ID` field forced. -/
def PtrUpdate (cfg : Config) (id : Int) (ca : Nat) : Config :=
  match mapLookup cfg.repo.posts id with
  | none => cfg
  | some _ =>
    let post := cfg.heap.read ca
    let (ai, h1) := cfg.heap.alloc ⟨id, post.title, post.content, post.author⟩
    ⟨h1, ⟨mapInsert cfg.repo.posts id ai, cfg.repo.nextID⟩, cfg.caller⟩

/-- `Delete` at pointer level. -/
def PtrDelete (cfg : Config) (id : Int) : Config :=
  match mapLookup cfg.repo.posts id with
  | none => cfg
  | some _ => ⟨cfg.heap, ⟨mapErase cfg.repo.posts id, cfg.repo.nextID⟩, cfg.caller⟩

/-- `LoadData` at pointer level: dereference each caller pointer and
store a fresh copy, advancing the counter as in the source. -/
def PtrLoadStep (cfg : Config) (ca : Nat) : Config :=
  let post := cfg.heap.read ca
  let (ai, h1) := cfg.heap.alloc post
  let nid := if post.id ≥ cfg.repo.nextID then post.id + 1 else cfg.repo.nextID
  ⟨h1, ⟨mapInsert cfg.repo.posts post.id ai, nid⟩, cfg.caller⟩

/-- `LoadData` at pointer level, over the whole batch. -/
def PtrLoadData (cfg : Config) (cas : List Nat) : Config :=
  cas.foldl PtrLoadStep cfg

/-- A caller mutation: assignment through a pointer the caller holds.
Addresses the caller does not hold are unreachable to it, so the write
only happens on held addresses. -/
def PtrMutate (cfg : Config) (a : Nat) (p : Post) : Config :=
  if a ∈ cfg.caller then ⟨cfg.heap.write a p, cfg.repo, cfg.caller⟩ else cfg

/-- Every pointer-level event: the repository operations plus caller
mutations of held pointers. -/
inductive COp where
  | getByID : Int → COp
  | getAll : COp
  | createGen : Str → Str → Str → COp
  | createExp : Nat → COp
  | updateOp : Int → Nat → COp
  | deleteOp : Int → COp
  | loadData : List Nat → COp
  | mutate : Nat → Post → COp

/-- One pointer-level step. -/
def cstep (cfg : Config) : COp → Config
  | COp.getByID id => (PtrGetByID cfg id).2
  | COp.getAll => (PtrGetAll cfg).2
  | COp.createGen t c a => (PtrCreatePost cfg t c a).2
  | COp.createExp ca => PtrCreate cfg ca
  | COp.updateOp id ca => PtrUpdate cfg id ca
  | COp.deleteOp id => PtrDelete cfg id
  | COp.loadData cas => PtrLoadData cfg cas
  | COp.mutate a p => PtrMutate cfg a p

/-- Configuration invariant: all store-internal and caller-held
addresses are allocated, and the two sets are disjoint — the store never
leaks a pointer to its own copy. -/
def GoodConfig (cfg : Config) : Prop :=
  (∀ pr ∈ cfg.repo.posts, Prod.snd pr < cfg.heap.next) ∧
  (∀ a ∈ cfg.caller, a < cfg.heap.next) ∧
  (∀ pr ∈ cfg.repo.posts, Prod.snd pr ∉ cfg.caller)

instance (cfg : Config) : Decidable (GoodConfig cfg) := by
  unfold GoodConfig
  infer_instance

/-- What the store will answer for each id: the value behind the stored
pointer.  This is the observable store state. -/
def view (cfg : Config) (id : Int) : Option Post :=
  (mapLookup cfg.repo.posts id).map cfg.heap.read

/-- The last element of the batch carrying the given ID, if any: the one
whose copy survives `LoadData`'s left-to-right overwriting. -/
def lastWith : List Post → Int → Option Post
  | [], _ => none
  | p :: ps, k =>
    match lastWith ps k with
    | some q => some q
    | none => if p.id = k then some p else none

theorem mapLookup_mapInsert_self {α : Type} (m : List (Int × α)) (k : Int) (v : α) :
    mapLookup (mapInsert m k v) k = some v := by
  induction m with
  | nil => simp [mapInsert, mapLookup]
  | cons pr rest ih =>
    by_cases h : pr.1 = k
    · simp [mapInsert, h, mapLookup]
    · simp [mapInsert, h, mapLookup, ih]

theorem mapLookup_mapInsert_ne {α : Type} (m : List (Int × α)) (k k' : Int)
    (v : α) (h : k ≠ k') :
    mapLookup (mapInsert m k v) k' = mapLookup m k' := by
  induction m with
  | nil => simp [mapInsert, mapLookup, h]
  | cons pr rest ih =>
    by_cases hk : pr.1 = k
    · simp [mapInsert, hk, mapLookup, h]
    · simp [mapInsert, hk, mapLookup, ih]

theorem mem_mapInsert {α : Type} (m : List (Int × α)) (k : Int) (v : α)
    (pr : Int × α) (h : pr ∈ mapInsert m k v) : pr = (k, v) ∨ pr ∈ m := by
  induction m with
  | nil => simpa [mapInsert] using h
  | cons hd rest ih =>
    by_cases hk : hd.1 = k
    · rcases (by simpa [mapInsert, hk] using h) with h1 | h1
      · exact Or.inl h1
      · exact Or.inr (List.mem_cons_of_mem _ h1)
    · rcases (by simpa [mapInsert, hk] using h) with h1 | h1
      · exact Or.inr (by simp [h1])
      · rcases ih h1 with h2 | h2
        · exact Or.inl h2
        · exact Or.inr (List.mem_cons_of_mem _ h2)

theorem mem_of_mem_mapErase {α : Type} (m : List (Int × α)) (k : Int)
    (pr : Int × α) (h : pr ∈ mapErase m k) : pr ∈ m := by
  induction m with
  | nil => simp [mapErase] at h
  | cons hd rest ih =>
    by_cases hk : hd.1 = k
    · exact List.mem_cons_of_mem _ (by simpa [mapErase, hk] using h)
    · rcases (by simpa [mapErase, hk] using h) with h1 | h1
      · simp [h1]
      · exact List.mem_cons_of_mem _ (ih h1)

theorem mem_mapKeys {α : Type} (m : List (Int × α)) (k : Int) :
    k ∈ mapKeys m ↔ ∃ v, (k, v) ∈ m := by
  constructor
  · intro h
    rcases List.mem_map.mp h with ⟨pr, hpr, hk⟩
    exact ⟨pr.2, by simpa [← hk] using hpr⟩
  · intro ⟨v, hv⟩
    exact List.mem_map.mpr ⟨(k, v), hv, rfl⟩

theorem mem_mapKeys_mapInsert {α : Type} (m : List (Int × α)) (k : Int)
    (v : α) (k' : Int) (h : k' ∈ mapKeys (mapInsert m k v)) :
    k' = k ∨ k' ∈ mapKeys m := by
  rcases (mem_mapKeys _ _).mp h with ⟨w, hw⟩
  rcases mem_mapInsert _ _ _ _ hw with h1 | h1
  · exact Or.inl (by simpa using congrArg Prod.fst h1)
  · exact Or.inr ((mem_mapKeys _ _).mpr ⟨w, h1⟩)

theorem mem_mapKeys_mapErase {α : Type} (m : List (Int × α)) (k : Int)
    (k' : Int) (h : k' ∈ mapKeys (mapErase m k)) : k' ∈ mapKeys m := by
  rcases (mem_mapKeys _ _).mp h with ⟨w, hw⟩
  exact (mem_mapKeys _ _).mpr ⟨w, mem_of_mem_mapErase _ _ _ hw⟩

theorem mapLookup_eq_none_iff {α : Type} (m : List (Int × α)) (k : Int) :
    mapLookup m k = none ↔ k ∉ mapKeys m := by
  induction m with
  | nil => simp [mapLookup, mapKeys]
  | cons hd rest ih =>
    by_cases hk : hd.1 = k
    · simp [mapLookup, hk, mapKeys]
    · simp only [mapLookup, hk, if_false, ih, mapKeys, List.map_cons, List.mem_cons]
      constructor
      · intro h hc
        rcases hc with hc | hc
        · exact hk hc.symm
        · exact h hc
      · intro h hc
        exact h (Or.inr hc)

theorem mapLookup_isSome_iff {α : Type} (m : List (Int × α)) (k : Int) :
    (mapLookup m k).isSome = true ↔ k ∈ mapKeys m := by
  rcases h : mapLookup m k with _ | v
  · simpa [h] using (mapLookup_eq_none_iff m k).mp h
  · have hk : k ∈ mapKeys m := by
      by_contra hc
      rw [(mapLookup_eq_none_iff m k).mpr hc] at h
      exact Option.noConfusion h
    simpa [h] using hk

theorem mapKeys_mapInsert_nodup {α : Type} (m : List (Int × α)) (k : Int)
    (v : α) (h : (mapKeys m).Nodup) : (mapKeys (mapInsert m k v)).Nodup := by
  induction m with
  | nil => simp [mapInsert, mapKeys]
  | cons hd rest ih =>
    simp only [mapKeys, List.map_cons, List.nodup_cons] at h
    by_cases hk : hd.1 = k
    · simpa [mapInsert, hk, mapKeys, List.nodup_cons] using (by simpa [← hk] using h)
    · have h2 := ih h.2
      simp only [mapInsert, hk, if_false, mapKeys, List.map_cons, List.nodup_cons]
      refine ⟨fun hc => ?_, h2⟩
      rcases mem_mapKeys_mapInsert rest k v hd.1 hc with h3 | h3
      · exact hk h3
      · exact h.1 h3

theorem mapKeys_mapErase_nodup {α : Type} (m : List (Int × α)) (k : Int)
    (h : (mapKeys m).Nodup) : (mapKeys (mapErase m k)).Nodup := by
  induction m with
  | nil => simp [mapErase, mapKeys]
  | cons hd rest ih =>
    simp only [mapKeys, List.map_cons, List.nodup_cons] at h
    by_cases hk : hd.1 = k
    · simpa [mapErase, hk, mapKeys] using h.2
    · simp only [mapErase, hk, if_false, mapKeys, List.map_cons, List.nodup_cons]
      exact ⟨fun hc => h.1 (mem_mapKeys_mapErase rest k hd.1 hc), ih h.2⟩

theorem NewPost_ok_eq (id : Int) (t c a : Str) (p : Post)
    (h : NewPost id t c a = Except.ok p) : p = ⟨id, t, c, a⟩ := by
  unfold NewPost at h
  rcases hv : Post.Validate ⟨id, t, c, a⟩ with _ | e
  · rw [hv] at h
    exact (Except.ok.inj h).symm
  · rw [hv] at h
    exact Except.noConfusion h

theorem NewPost_error_iff (id : Int) (t c a : Str) (e : String) :
    NewPost id t c a = Except.error e ↔ Post.Validate ⟨id, t, c, a⟩ = some e := by
  unfold NewPost
  rcases hv : Post.Validate ⟨id, t, c, a⟩ with _ | e1
  · simp
  · simp only []
    constructor
    · intro h
      exact congrArg some (Except.error.inj h)
    · intro h
      exact congrArg Except.error (Option.some.inj h)

theorem mapLookup_mem {α : Type} (m : List (Int × α)) (k : Int) (v : α)
    (h : mapLookup m k = some v) : (k, v) ∈ m := by
  induction m with
  | nil => exact Option.noConfusion h
  | cons hd rest ih =>
    rcases hd with ⟨k1, v1⟩
    unfold mapLookup at h
    by_cases he : k1 = k
    · simp only [he, if_true] at h
      rw [← he, Option.some.inj h]
      exact List.mem_cons_self _ _
    · simp only [he, if_false] at h
      exact List.mem_cons_of_mem _ (ih h)

theorem nextID_applyOp_le (r : MemoryPostRepository) (op : Op) :
    r.nextID ≤ (applyOp r op).nextID := by
  cases op with
  | createGen t c a =>
    simp only [applyOp, MemoryPostRepository.CreatePost]
    rcases hn : NewPost r.nextID t c a with e | p <;> simp [hn]
  | createExp p =>
    simp only [applyOp, MemoryPostRepository.Create]
    rcases hl : mapLookup r.posts p.id with _ | q
    · by_cases h : p.id ≥ r.nextID <;> simp [h] <;> omega
    · simp
  | updateOp id p =>
    simp only [applyOp, MemoryPostRepository.Update]
    rcases hl : mapLookup r.posts id with _ | q <;> simp [hl]
  | deleteOp id =>
    simp only [applyOp, MemoryPostRepository.Delete]
    rcases hl : mapLookup r.posts id with _ | q <;> simp [hl]
  | bulkLoad ps =>
    show r.nextID ≤ (ps.foldl loadDataStep r).nextID
    induction ps generalizing r with
    | nil => simp
    | cons p rest ih =>
      refine le_trans ?_ (ih (loadDataStep r p))
      simp only [loadDataStep]
      by_cases h : p.id ≥ r.nextID <;> simp [h] <;> omega

theorem keysBelow_loadDataStep (r : MemoryPostRepository) (p : Post)
    (h : KeysBelow r) : KeysBelow (loadDataStep r p) := by
  intro k hk
  simp only [loadDataStep] at hk ⊢
  by_cases hge : p.id ≥ r.nextID <;> simp only [hge, if_true, if_false] at hk ⊢ <;>
    rcases mem_mapKeys_mapInsert _ _ _ _ hk with h1 | h1
  · simp only [h1]
    omega
  · have := h k h1
    omega
  · simp only [h1]
    omega
  · exact h k h1

theorem keysBelow_applyOp (r : MemoryPostRepository) (op : Op)
    (h : KeysBelow r) : KeysBelow (applyOp r op) := by
  cases op with
  | createGen t c a =>
    intro k hk
    simp only [applyOp, MemoryPostRepository.CreatePost] at hk ⊢
    rcases hn : NewPost r.nextID t c a with e | p <;> simp only [hn] at hk ⊢
    · have := h k hk
      omega
    · have hp := NewPost_ok_eq _ _ _ _ _ hn
      rcases mem_mapKeys_mapInsert _ _ _ _ hk with h1 | h1
      · rw [h1, hp]
        show r.nextID < r.nextID + 1
        omega
      · have := h k h1
        omega
  | createExp p =>
    intro k hk
    simp only [applyOp, MemoryPostRepository.Create] at hk ⊢
    rcases hl : mapLookup r.posts p.id with _ | q <;> simp only [hl] at hk ⊢
    · by_cases hge : p.id ≥ r.nextID <;>
        simp only [hge, if_true, if_false] at hk ⊢ <;>
        rcases mem_mapKeys_mapInsert _ _ _ _ hk with h1 | h1
      · simp only [h1]
        omega
      · have := h k h1
        omega
      · simp only [h1]
        omega
      · exact h k h1
    · exact h k hk
  | updateOp id p =>
    intro k hk
    simp only [applyOp, MemoryPostRepository.Update] at hk ⊢
    rcases hl : mapLookup r.posts id with _ | q <;> simp only [hl] at hk ⊢
    · exact h k hk
    · rcases mem_mapKeys_mapInsert _ _ _ _ hk with h1 | h1
      · refine h k ?_
        rw [h1]
        exact (mem_mapKeys r.posts id).mpr ⟨q, mapLookup_mem _ _ _ hl⟩
      · exact h k h1
  | deleteOp id =>
    intro k hk
    simp only [applyOp, MemoryPostRepository.Delete] at hk ⊢
    rcases hl : mapLookup r.posts id with _ | q <;> simp only [hl] at hk ⊢
    · exact h k hk
    · exact h k (mem_mapKeys_mapErase _ _ _ hk)
  | bulkLoad ps =>
    show KeysBelow (ps.foldl loadDataStep r)
    induction ps generalizing r with
    | nil => exact h
    | cons p rest ih => exact ih (loadDataStep r p) (keysBelow_loadDataStep r p h)

theorem wf_parts_mapInsert (m : List (Int × Post)) (k : Int) (v : Post)
    (hid : v.id = k) (hn : (mapKeys m).Nodup)
    (hv : ∀ pr ∈ m, (Prod.snd pr).id = Prod.fst pr) :
    (mapKeys (mapInsert m k v)).Nodup ∧
      ∀ pr ∈ mapInsert m k v, (Prod.snd pr).id = Prod.fst pr := by
  refine ⟨mapKeys_mapInsert_nodup _ _ _ hn, fun pr hpr => ?_⟩
  rcases mem_mapInsert _ _ _ _ hpr with h1 | h1
  · rw [h1]
    exact hid
  · exact hv pr h1

theorem wfMap_loadDataStep (r : MemoryPostRepository) (p : Post)
    (h : WFMap r) : WFMap (loadDataStep r p) := by
  obtain ⟨hn, hv⟩ := h
  simp only [loadDataStep]
  by_cases hge : p.id ≥ r.nextID <;> simp only [hge, if_true, if_false] <;>
    exact wf_parts_mapInsert _ _ _ rfl hn hv

theorem wfMap_applyOp (r : MemoryPostRepository) (op : Op)
    (h : WFMap r) : WFMap (applyOp r op) := by
  obtain ⟨hn, hv⟩ := h
  cases op with
  | createGen t c a =>
    simp only [applyOp, MemoryPostRepository.CreatePost]
    rcases hne : NewPost r.nextID t c a with e | p <;> simp only [hne]
    · exact ⟨hn, hv⟩
    · exact wf_parts_mapInsert _ _ _ rfl hn hv
  | createExp p =>
    simp only [applyOp, MemoryPostRepository.Create]
    rcases hl : mapLookup r.posts p.id with _ | q <;> simp only [hl]
    · by_cases hge : p.id ≥ r.nextID <;> simp only [hge, if_true, if_false] <;>
        exact wf_parts_mapInsert _ _ _ rfl hn hv
    · exact ⟨hn, hv⟩
  | updateOp id p =>
    simp only [applyOp, MemoryPostRepository.Update]
    rcases hl : mapLookup r.posts id with _ | q <;> simp only [hl]
    · exact ⟨hn, hv⟩
    · exact wf_parts_mapInsert _ _ _ rfl hn hv
  | deleteOp id =>
    simp only [applyOp, MemoryPostRepository.Delete]
    rcases hl : mapLookup r.posts id with _ | q <;> simp only [hl]
    · exact ⟨hn, hv⟩
    · exact ⟨mapKeys_mapErase_nodup _ _ hn,
        fun pr hpr => hv pr (mem_of_mem_mapErase _ _ _ hpr)⟩
  | bulkLoad ps =>
    show WFMap (ps.foldl loadDataStep r)
    induction ps generalizing r with
    | nil => exact ⟨hn, hv⟩
    | cons p rest ih =>
      obtain ⟨hn1, hv1⟩ := wfMap_loadDataStep r p ⟨hn, hv⟩
      exact ih (loadDataStep r p) hn1 hv1

theorem keysBelow_foldl (l : List Op) (r : MemoryPostRepository)
    (h : KeysBelow r) : KeysBelow (l.foldl applyOp r) := by
  induction l generalizing r with
  | nil => exact h
  | cons op rest ih => exact ih (applyOp r op) (keysBelow_applyOp r op h)

theorem nextID_foldl_le (l : List Op) (r : MemoryPostRepository) :
    r.nextID ≤ (l.foldl applyOp r).nextID := by
  induction l generalizing r with
  | nil => exact le_refl _
  | cons op rest ih =>
    exact le_trans (nextID_applyOp_le r op) (ih (applyOp r op))

theorem keysBelow_runOps (ops : List Op) : KeysBelow (runOps ops) := by
  refine keysBelow_foldl ops NewMemoryPostRepository ?_
  intro k hk
  simp [NewMemoryPostRepository, mapKeys] at hk

theorem wfMap_foldl (l : List Op) (r : MemoryPostRepository)
    (h : WFMap r) : WFMap (l.foldl applyOp r) := by
  induction l generalizing r with
  | nil => exact h
  | cons op rest ih => exact ih (applyOp r op) (wfMap_applyOp r op h)

theorem wfMap_runOps (ops : List Op) : WFMap (runOps ops) := by
  refine wfMap_foldl ops NewMemoryPostRepository ⟨?_, ?_⟩
  · simp [NewMemoryPostRepository, mapKeys]
  · intro pr hpr
    simp [NewMemoryPostRepository] at hpr

theorem runOps_append (l1 l2 : List Op) :
    runOps (l1 ++ l2) = l2.foldl applyOp (runOps l1) :=
  List.foldl_append _ _ _ _

theorem CreatePost_ok_id (r : MemoryPostRepository) (t c a : Str) (p : Post)
    (h : (r.CreatePost t c a).1 = Except.ok p) : p.id = r.nextID := by
  simp only [MemoryPostRepository.CreatePost] at h
  rcases hn : NewPost r.nextID t c a with e | q <;> simp only [hn] at h
  · exact Except.noConfusion h
  · rw [← Except.ok.inj h, NewPost_ok_eq _ _ _ _ _ hn]

theorem applyOp_createGen_nextID (r : MemoryPostRepository) (t c a : Str) :
    (applyOp r (Op.createGen t c a)).nextID = r.nextID + 1 := by
  simp only [applyOp, MemoryPostRepository.CreatePost]
  rcases hn : NewPost r.nextID t c a with e | q <;> simp only [hn]

theorem Validate_eq_spec (p : Post) : Post.Validate p = ValidateSpec p := by
  simp only [Post.Validate, ValidateSpec, firstViolated, decide_eq_true_eq]

theorem NewPost_ok_iff (id : Int) (t c a : Str) :
    NewPost id t c a = Except.ok ⟨id, t, c, a⟩ ↔
      Post.Validate ⟨id, t, c, a⟩ = none := by
  unfold NewPost
  rcases hv : Post.Validate ⟨id, t, c, a⟩ with _ | e <;> simp

theorem loadData_lookup (ps : List Post) (r : MemoryPostRepository) (k : Int) :
    mapLookup (ps.foldl loadDataStep r).posts k =
      match lastWith ps k with
      | some q => some q
      | none => mapLookup r.posts k := by
  induction ps generalizing r with
  | nil => simp [lastWith]
  | cons p rest ih =>
    show mapLookup (rest.foldl loadDataStep (loadDataStep r p)).posts k = _
    rw [ih (loadDataStep r p)]
    have hstep : mapLookup (loadDataStep r p).posts k =
        if p.id = k then some p else mapLookup r.posts k := by
      simp only [loadDataStep]
      by_cases hge : p.id ≥ r.nextID <;> simp only [hge, if_true, if_false] <;>
        by_cases he : p.id = k
      · rw [he, mapLookup_mapInsert_self, if_pos rfl]
      · rw [mapLookup_mapInsert_ne _ _ _ _ he, if_neg he]
      · rw [he, mapLookup_mapInsert_self, if_pos rfl]
      · rw [mapLookup_mapInsert_ne _ _ _ _ he, if_neg he]
    rcases hlw : lastWith rest k with _ | q
    · simp only [lastWith, hlw]
      rw [hstep]
      by_cases he : p.id = k <;> simp [he]
    · simp [lastWith, hlw]

theorem loadData_nextID (ps : List Post) (r : MemoryPostRepository) :
    (ps.foldl loadDataStep r).nextID =
      ps.foldl (fun n p => max n (p.id + 1)) r.nextID := by
  induction ps generalizing r with
  | nil => rfl
  | cons p rest ih =>
    show (rest.foldl loadDataStep (loadDataStep r p)).nextID = _
    rw [ih (loadDataStep r p)]
    have hstep : (loadDataStep r p).nextID = max r.nextID (p.id + 1) := by
      simp only [loadDataStep]
      by_cases hge : p.id ≥ r.nextID <;> simp only [hge, if_true, if_false] <;> omega
    rw [hstep, List.foldl_cons]

theorem foldl_max_ge_init (l : List Int) (ini : Int) :
    ini ≤ l.foldl max ini := by
  induction l generalizing ini with
  | nil => exact le_refl _
  | cons x rest ih => exact le_trans (le_max_left ini x) (ih (max ini x))

theorem foldl_max_ge_mem (l : List Int) :
    ∀ (ini y : Int), y ∈ l → y ≤ l.foldl max ini := by
  induction l with
  | nil =>
    intro ini y hy
    exact absurd hy (List.not_mem_nil y)
  | cons x rest ih =>
    intro ini y hy
    rcases List.mem_cons.mp hy with h | h
    · rw [h]
      exact le_trans (le_max_right ini x) (foldl_max_ge_init rest (max ini x))
    · exact ih (max ini x) y h

theorem foldl_max_eq_init_or_mem (l : List Int) :
    ∀ ini : Int, l.foldl max ini = ini ∨ l.foldl max ini ∈ l := by
  induction l with
  | nil =>
    intro ini
    exact Or.inl rfl
  | cons x rest ih =>
    intro ini
    show rest.foldl max (max ini x) = ini ∨ rest.foldl max (max ini x) ∈ x :: rest
    rcases ih (max ini x) with h | h
    · rcases max_choice ini x with hm | hm
      · rw [hm] at h ⊢
        exact Or.inl h
      · rw [hm] at h ⊢
        exact Or.inr (by rw [h]; exact List.mem_cons_self _ _)
    · exact Or.inr (List.mem_cons_of_mem _ h)

theorem map_snd_id_eq_mapKeys (m : List (Int × Post))
    (hv : ∀ pr ∈ m, (Prod.snd pr).id = Prod.fst pr) :
    (m.map Prod.snd).map Post.id = mapKeys m := by
  rw [List.map_map]
  exact List.map_congr_left hv

theorem pairwise_lt_of_le_nodup (l : List Post)
    (hs : l.Pairwise idLE) (hn : (l.map Post.id).Nodup) :
    l.Pairwise (fun p q => p.id < q.id) := by
  induction l with
  | nil => exact List.Pairwise.nil
  | cons p rest ih =>
    rcases List.pairwise_cons.mp hs with ⟨hp, hrest⟩
    simp only [List.map_cons, List.nodup_cons] at hn
    refine List.pairwise_cons.mpr ⟨fun q hq => ?_, ih hrest hn.2⟩
    have hle : p.id ≤ q.id := hp q hq
    have hne : p.id ≠ q.id := fun hc => hn.1 (by rw [hc]; exact List.mem_map_of_mem _ hq)
    omega

/-- C1: the claim asserts that a failed generated-ID creation consumes no
ID and leaves the whole store state unchanged.  Counterexample: on the
initial store, `CreatePost` with a blank title fails with the validation
error yet increments `nextID` from 1 to 2, and the next successful call
receives ID 2 — not the ID 1 the failed call would have received. -/
theorem claim1_counterexample :
    (NewMemoryPostRepository.CreatePost [] [ 'x' ] [ 'y' ]).1 =
      Except.error "title is required" ∧
    (NewMemoryPostRepository.CreatePost [] [ 'x' ] [ 'y' ]).2 ≠
      NewMemoryPostRepository ∧
    ((NewMemoryPostRepository.CreatePost [] [ 'x' ] [ 'y' ]).2).nextID = 2 ∧
    (((NewMemoryPostRepository.CreatePost [] [ 'x' ] [ 'y' ]).2).CreatePost
        [ 't' ] [ 'c' ] [ 'a' ]).1 =
      Except.ok ⟨2, [ 't' ], [ 'c' ], [ 'a' ]⟩ :=
  ⟨by decide, by decide, by decide, by decide⟩

/-- C1 amended: for every store state and invalid (title, content,
author), `CreatePost` fails with the validation error, leaves the map
unchanged, but increments `nextID` by one — an ID is consumed on
validation failure, so a subsequent successful `CreatePost` receives the
failed call's would-be ID plus one. -/
theorem claim1_amended (r : MemoryPostRepository) (t c a : Str) (e : String)
    (h : Post.Validate ⟨r.nextID, t, c, a⟩ = some e) :
    (r.CreatePost t c a).1 = Except.error e ∧
    (r.CreatePost t c a).2 = ⟨r.posts, r.nextID + 1⟩ ∧
    ∀ t1 c1 a1 p, (((r.CreatePost t c a).2).CreatePost t1 c1 a1).1 = Except.ok p →
      p.id = r.nextID + 1 := by
  have hn : NewPost r.nextID t c a = Except.error e := by
    unfold NewPost
    rw [h]
  have h2 : (r.CreatePost t c a).2 = ⟨r.posts, r.nextID + 1⟩ := by
    simp only [MemoryPostRepository.CreatePost, hn]
  refine ⟨by simp only [MemoryPostRepository.CreatePost, hn], h2, ?_⟩
  intro t1 c1 a1 p hp
  have hid := CreatePost_ok_id _ _ _ _ _ hp
  rw [h2] at hid
  exact hid

/-- C1 amended, witness: the amended statement instantiated on the
initial store with a blank title. -/
theorem claim1_amended_witness :
    Post.Validate ⟨(1 : Int), [], [ 'c' ], [ 'a' ]⟩ = some "title is required" ∧
    (NewMemoryPostRepository.CreatePost [] [ 'c' ] [ 'a' ]).1 =
      Except.error "title is required" :=
  ⟨by decide,
    (claim1_amended NewMemoryPostRepository [] [ 'c' ] [ 'a' ]
      "title is required" (by decide)).1⟩

/-- C2: on every store reachable from the initial one, `nextID` strictly
exceeds every key currently held; `nextID` never decreases across further
operations; an ID generated later is strictly greater than one generated
earlier; and any key ever held (hence also any deleted key) is strictly
below every later generated ID, so deleted IDs are never reallocated. -/
theorem claim2_counter_monotone (ops : List Op) :
    (∀ k ∈ mapKeys (runOps ops).posts, k < (runOps ops).nextID) ∧
    (∀ more : List Op, (runOps ops).nextID ≤ (runOps (ops ++ more)).nextID) ∧
    (∀ more t c a t1 c1 a1 p p1,
      ((runOps ops).CreatePost t c a).1 = Except.ok p →
      ((runOps (ops ++ Op.createGen t c a :: more)).CreatePost t1 c1 a1).1 =
        Except.ok p1 →
      p.id < p1.id) ∧
    (∀ more k t c a p, k ∈ mapKeys (runOps ops).posts →
      ((runOps (ops ++ more)).CreatePost t c a).1 = Except.ok p →
      k < p.id) := by
  refine ⟨keysBelow_runOps ops, ?_, ?_, ?_⟩
  · intro more
    rw [runOps_append]
    exact nextID_foldl_le more _
  · intro more t c a t1 c1 a1 p p1 h1 h2
    have hp := CreatePost_ok_id _ _ _ _ _ h1
    have hp1 := CreatePost_ok_id _ _ _ _ _ h2
    have hrw : runOps (ops ++ Op.createGen t c a :: more) =
        more.foldl applyOp (applyOp (runOps ops) (Op.createGen t c a)) := by
      rw [runOps_append]
      rfl
    have hmono := nextID_foldl_le more (applyOp (runOps ops) (Op.createGen t c a))
    have hgen := applyOp_createGen_nextID (runOps ops) t c a
    rw [hp, hp1, hrw]
    omega
  · intro more k t c a p hk hp
    have h1 := keysBelow_runOps ops k hk
    have h2 : (runOps ops).nextID ≤ (runOps (ops ++ more)).nextID := by
      rw [runOps_append]
      exact nextID_foldl_le more _
    rw [CreatePost_ok_id _ _ _ _ _ hp]
    omega

/-- C2, witness: after explicitly inserting ID 1, the next generated ID
is 2 and exceeds the held key 1. -/
theorem claim2_witness :
    (1 : Int) ∈ mapKeys (runOps [Op.createExp ⟨1, [ 't' ], [ 'c' ], [ 'a' ]⟩]).posts ∧
    ((runOps ([Op.createExp ⟨1, [ 't' ], [ 'c' ], [ 'a' ]⟩] ++ [])).CreatePost
        [ 'x' ] [ 'y' ] [ 'z' ]).1 = Except.ok ⟨2, [ 'x' ], [ 'y' ], [ 'z' ]⟩ ∧
    (1 : Int) < (Post.mk 2 [ 'x' ] [ 'y' ] [ 'z' ]).id :=
  ⟨by decide, by decide,
    (claim2_counter_monotone [Op.createExp ⟨1, [ 't' ], [ 'c' ], [ 'a' ]⟩]).2.2.2
      [] 1 [ 'x' ] [ 'y' ] [ 'z' ] ⟨2, [ 'x' ], [ 'y' ], [ 'z' ]⟩
      (by decide) (by decide)⟩

set_option maxRecDepth 4000 in
/-- C3: construction of a Post fails exactly when a validation rule is
violated and returns the message of the first violated rule in the
specification's order (blank title, blank content, blank author, then
title length over 255); a 255-character title is valid and a
256-character one is rejected with the length message. -/
theorem claim3_validation_order (id : Int) (t c a : Str) :
    (∀ e, NewPost id t c a = Except.error e ↔ ValidateSpec ⟨id, t, c, a⟩ = some e) ∧
    (NewPost id t c a = Except.ok ⟨id, t, c, a⟩ ↔ ValidateSpec ⟨id, t, c, a⟩ = none) ∧
    NewPost 7 (List.replicate 255 'a') [ 'c' ] [ 'd' ] =
      Except.ok ⟨7, List.replicate 255 'a', [ 'c' ], [ 'd' ]⟩ ∧
    NewPost 7 (List.replicate 256 'a') [ 'c' ] [ 'd' ] =
      Except.error "title must be less than 255 characters" := by
  refine ⟨?_, ?_, by decide, by decide⟩
  · intro e
    rw [NewPost_error_iff, Validate_eq_spec]
  · rw [NewPost_ok_iff, Validate_eq_spec]

/-- C4: entity-level update validates the prospective state built from
the receiver's ID and the supplied fields; on failure it returns that
validation error and the receiver is unchanged in all four fields, on
success all three text fields are replaced and the ID is kept; the ID is
unchanged in every case. -/
theorem claim4_update_atomic (p : Post) (t c a : Str) :
    (∀ e, Post.Validate ⟨p.id, t, c, a⟩ = some e → p.Update t c a = (p, some e)) ∧
    (Post.Validate ⟨p.id, t, c, a⟩ = none → p.Update t c a = (⟨p.id, t, c, a⟩, none)) ∧
    ((p.Update t c a).1).id = p.id := by
  refine ⟨?_, ?_, ?_⟩
  · intro e h
    simp only [Post.Update, h]
  · intro h
    simp only [Post.Update, h]
  · rcases hv : Post.Validate ⟨p.id, t, c, a⟩ with _ | e <;>
      simp only [Post.Update, hv]

/-- C4, witness: updating a valid post with a blank title fails with the
title error and leaves the post unchanged. -/
theorem claim4_witness :
    Post.Validate ⟨1, [], [ 'c' ], [ 'a' ]⟩ = some "title is required" ∧
    Post.Update ⟨1, [ 't' ], [ 'c' ], [ 'a' ]⟩ [] [ 'c' ] [ 'a' ] =
      (⟨1, [ 't' ], [ 'c' ], [ 'a' ]⟩, some "title is required") :=
  ⟨by decide,
    (claim4_update_atomic ⟨1, [ 't' ], [ 'c' ], [ 'a' ]⟩ [] [ 'c' ] [ 'a' ]).1
      "title is required" (by decide)⟩

/-- C5: store-level update fails with the not-found error and leaves the
store unchanged when the id is absent; when present it replaces the
stored value with the supplied post whose ID field is forced to the
given id, whatever ID the supplied value carried. -/
theorem claim5_store_update (r : MemoryPostRepository) (id : Int) (post : Post) :
    (mapLookup r.posts id = none → r.Update id post = (some ErrPostNotFound, r)) ∧
    (∀ q, mapLookup r.posts id = some q →
      r.Update id post =
        (none, ⟨mapInsert r.posts id ⟨id, post.title, post.content, post.author⟩,
          r.nextID⟩) ∧
      mapLookup ((r.Update id post).2).posts id =
        some ⟨id, post.title, post.content, post.author⟩) := by
  refine ⟨?_, ?_⟩
  · intro h
    simp only [MemoryPostRepository.Update, h]
  · intro q h
    refine ⟨by simp only [MemoryPostRepository.Update, h], ?_⟩
    simp only [MemoryPostRepository.Update, h]
    exact mapLookup_mapInsert_self _ _ _

/-- C5, witness: updating present id 1 with a post carrying ID 99 stores
the post under 1 with its ID forced to 1. -/
theorem claim5_witness :
    mapLookup (runOps [Op.createExp ⟨1, [ 't' ], [ 'c' ], [ 'a' ]⟩]).posts 1 =
      some ⟨1, [ 't' ], [ 'c' ], [ 'a' ]⟩ ∧
    mapLookup (((runOps [Op.createExp ⟨1, [ 't' ], [ 'c' ], [ 'a' ]⟩]).Update 1
        ⟨99, [ 'u' ], [ 'v' ], [ 'w' ]⟩).2).posts 1 =
      some ⟨1, [ 'u' ], [ 'v' ], [ 'w' ]⟩ :=
  ⟨by decide,
    ((claim5_store_update (runOps [Op.createExp ⟨1, [ 't' ], [ 'c' ], [ 'a' ]⟩]) 1
      ⟨99, [ 'u' ], [ 'v' ], [ 'w' ]⟩).2 ⟨1, [ 't' ], [ 'c' ], [ 'a' ]⟩ (by decide)).2⟩

/-- C6: on every reachable store, getAll returns one copy of every
stored post (a permutation of the map's values) in strictly ascending ID
order; the empty store yields the empty sequence; and explicit insertion
of IDs 3, 1, 2 yields the ID sequence [1, 2, 3]. -/
theorem claim6_getAll_sorted :
    (∀ ops : List Op,
      ((runOps ops).GetAll).Perm ((runOps ops).posts.map Prod.snd) ∧
      ((runOps ops).GetAll).Pairwise (fun p q => p.id < q.id)) ∧
    NewMemoryPostRepository.GetAll = [] ∧
    (runOps [Op.createExp ⟨3, [ 't' ], [ 'c' ], [ 'a' ]⟩,
             Op.createExp ⟨1, [ 't' ], [ 'c' ], [ 'a' ]⟩,
             Op.createExp ⟨2, [ 't' ], [ 'c' ], [ 'a' ]⟩]).GetAll.map Post.id =
      [1, 2, 3] := by
  refine ⟨?_, by decide, by decide⟩
  intro ops
  obtain ⟨hn, hv⟩ := wfMap_runOps ops
  have hperm : ((runOps ops).GetAll).Perm ((runOps ops).posts.map Prod.snd) :=
    List.perm_insertionSort idLE _
  refine ⟨hperm, ?_⟩
  have hs : ((runOps ops).GetAll).Pairwise idLE :=
    List.sorted_insertionSort idLE _
  have hids : (((runOps ops).posts.map Prod.snd).map Post.id).Nodup := by
    rw [map_snd_id_eq_mapKeys _ hv]
    exact hn
  have hmapperm : (((runOps ops).GetAll).map Post.id).Perm
      (((runOps ops).posts.map Prod.snd).map Post.id) := hperm.map Post.id
  exact pairwise_lt_of_le_nodup _ hs (hmapperm.nodup_iff.mpr hids)

/-- C7: the claim asserts that bulkLoad always leaves `nextID` equal to
one past the maximum ID of the batch.  Counterexample: loading ID 5
(nextID becomes 6) and then bulk-loading a batch whose maximum ID is 1
leaves `nextID` at 6, not at 1 + 1 = 2 — the counter never moves
backwards. -/
theorem claim7_counterexample :
    ((((NewMemoryPostRepository.LoadData
        [⟨5, [ 't' ], [ 'c' ], [ 'a' ]⟩]).2).LoadData
        [⟨1, [ 't' ], [ 'c' ], [ 'a' ]⟩]).2).nextID = 6 ∧
    ¬((((NewMemoryPostRepository.LoadData
        [⟨5, [ 't' ], [ 'c' ], [ 'a' ]⟩]).2).LoadData
        [⟨1, [ 't' ], [ 'c' ], [ 'a' ]⟩]).2).nextID = 1 + 1 :=
  ⟨by decide, by decide⟩

/-- C7 amended: bulkLoad inserts every post of the batch keyed by its ID
(the last occurrence winning over both earlier batch entries and existing
entries), never returns an error, and leaves `nextID` equal to the
maximum of its previous value and one past each loaded ID; in particular
on a fresh store a nonempty batch of positive IDs followed by a
generated-ID creation yields (max loaded ID + 1). -/
theorem claim7_amended (r : MemoryPostRepository) (ps : List Post) :
    (r.LoadData ps).1 = none ∧
    (∀ k, mapLookup ((r.LoadData ps).2).posts k =
      match lastWith ps k with
      | some q => some q
      | none => mapLookup r.posts k) ∧
    ((r.LoadData ps).2).nextID = ps.foldl (fun n p => max n (p.id + 1)) r.nextID ∧
    (ps ≠ [] → (∀ p ∈ ps, 1 ≤ p.id) → ∀ t c a q,
      (((NewMemoryPostRepository.LoadData ps).2).CreatePost t c a).1 = Except.ok q →
      ∃ pm ∈ ps, q.id = pm.id + 1 ∧ ∀ p ∈ ps, p.id ≤ pm.id) := by
  refine ⟨rfl, ?_, loadData_nextID ps r, ?_⟩
  · intro k
    exact loadData_lookup ps r k
  · intro hne hpos t c a q hq
    have hid := CreatePost_ok_id _ _ _ _ _ hq
    have hnext := loadData_nextID ps NewMemoryPostRepository
    have hfold : ps.foldl (fun n p => max n (p.id + 1)) NewMemoryPostRepository.nextID =
        (ps.map (fun p => p.id + 1)).foldl max 1 := by
      rw [List.foldl_map]
      rfl
    have hmem : (ps.map (fun p => p.id + 1)).foldl max 1 ∈
        ps.map (fun p => p.id + 1) := by
      rcases foldl_max_eq_init_or_mem (ps.map (fun p => p.id + 1)) 1 with h | h
      · exfalso
        rcases ps with _ | ⟨p0, ps1⟩
        · exact hne rfl
        · have hx : p0.id + 1 ∈ (p0 :: ps1).map (fun p => p.id + 1) :=
            List.mem_map_of_mem _ (List.mem_cons_self _ _)
          have h2 := foldl_max_ge_mem _ 1 (p0.id + 1) hx
          have h3 : 1 ≤ p0.id := hpos p0 (List.mem_cons_self _ _)
          rw [h] at h2
          omega
      · exact h
    rcases List.mem_map.mp hmem with ⟨pm, hpm, hpmM⟩
    refine ⟨pm, hpm, ?_, ?_⟩
    · rw [hid]
      show (List.foldl loadDataStep NewMemoryPostRepository ps).nextID = pm.id + 1
      rw [hnext, hfold, ← hpmM]
    · intro p hp
      have h4 := foldl_max_ge_mem (ps.map (fun p => p.id + 1)) 1 (p.id + 1)
        (List.mem_map_of_mem _ hp)
      omega

/-- C7 amended, witness: loading ID 5 on a fresh store and then creating
with generated ID yields ID 6 = 5 + 1. -/
theorem claim7_amended_witness :
    ([⟨5, [ 't' ], [ 'c' ], [ 'a' ]⟩] : List Post) ≠ [] ∧
    (∀ p ∈ ([⟨5, [ 't' ], [ 'c' ], [ 'a' ]⟩] : List Post), 1 ≤ p.id) ∧
    (((NewMemoryPostRepository.LoadData [⟨5, [ 't' ], [ 'c' ], [ 'a' ]⟩]).2).CreatePost
        [ 'x' ] [ 'y' ] [ 'z' ]).1 = Except.ok ⟨6, [ 'x' ], [ 'y' ], [ 'z' ]⟩ ∧
    (∃ pm ∈ ([⟨5, [ 't' ], [ 'c' ], [ 'a' ]⟩] : List Post),
      (Post.mk 6 [ 'x' ] [ 'y' ] [ 'z' ]).id = pm.id + 1 ∧
      ∀ p ∈ ([⟨5, [ 't' ], [ 'c' ], [ 'a' ]⟩] : List Post), p.id ≤ pm.id) :=
  ⟨by decide, by decide, by decide,
    (claim7_amended NewMemoryPostRepository [⟨5, [ 't' ], [ 'c' ], [ 'a' ]⟩]).2.2.2
      (by decide) (by decide) [ 'x' ] [ 'y' ] [ 'z' ] ⟨6, [ 'x' ], [ 'y' ], [ 'z' ]⟩
      (by decide)⟩

/-- C9: when the id is present and the new fields are invalid, the
service-level update returns the validation error and the whole store
state — in particular the stored post for the id — is exactly as before
the call: the service mutates only the copy obtained from `GetByID` and
never reaches the store's `Update`. -/
theorem claim9_service_update_validation (r : MemoryPostRepository) (id : Int)
    (t c a : Str) (q : Post) (e : String)
    (hq : mapLookup r.posts id = some q)
    (he : Post.Validate ⟨q.id, t, c, a⟩ = some e) :
    PostService.UpdatePost r id t c a = (Except.error e, r) := by
  simp only [PostService.UpdatePost, MemoryPostRepository.GetByID, hq,
    Post.Update, he]

/-- C9, witness: the service update with a blank title on a present id
returns the title error and the unchanged store. -/
theorem claim9_witness :
    mapLookup (runOps [Op.createExp ⟨1, [ 't' ], [ 'c' ], [ 'a' ]⟩]).posts 1 =
      some ⟨1, [ 't' ], [ 'c' ], [ 'a' ]⟩ ∧
    Post.Validate ⟨(1 : Int), [], [ 'v' ], [ 'w' ]⟩ = some "title is required" ∧
    PostService.UpdatePost (runOps [Op.createExp ⟨1, [ 't' ], [ 'c' ], [ 'a' ]⟩])
        1 [] [ 'v' ] [ 'w' ] =
      (Except.error "title is required",
        runOps [Op.createExp ⟨1, [ 't' ], [ 'c' ], [ 'a' ]⟩]) :=
  ⟨by decide, by decide,
    claim9_service_update_validation _ 1 [] [ 'v' ] [ 'w' ]
      ⟨1, [ 't' ], [ 'c' ], [ 'a' ]⟩ "title is required" (by decide) (by decide)⟩

/-- C10: the title length check is applied to the raw, untrimmed title:
any title that is non-blank after trimming but whose raw UTF-8 length
exceeds 255 is rejected with the length message (given non-blank content
and author), and the length error is only ever returned for titles that
are non-blank after trimming. -/
theorem claim10_raw_length (id : Int) (t c a : Str) :
    (trimSpace t ≠ [] → trimSpace c ≠ [] → trimSpace a ≠ [] → 255 < utf8Len t →
      NewPost id t c a = Except.error "title must be less than 255 characters") ∧
    (∀ p : Post, Post.Validate p = some "title must be less than 255 characters" →
      trimSpace p.title ≠ []) := by
  constructor
  · intro h1 h2 h3 h4
    rw [NewPost_error_iff]
    simp [Post.Validate, h1, h2, h3, h4]
  · intro p hv hc
    unfold Post.Validate at hv
    rw [if_pos hc] at hv
    exact absurd (Option.some.inj hv) (by decide)

set_option maxRecDepth 4000 in
/-- C10, witness: one letter followed by 300 spaces is non-blank after
trimming, has raw length 301, and is rejected with the length message. -/
theorem claim10_witness :
    trimSpace ('a' :: List.replicate 300 ' ') ≠ [] ∧
    trimSpace [ 'c' ] ≠ [] ∧
    trimSpace [ 'd' ] ≠ [] ∧
    255 < utf8Len ('a' :: List.replicate 300 ' ') ∧
    NewPost 1 ('a' :: List.replicate 300 ' ') [ 'c' ] [ 'd' ] =
      Except.error "title must be less than 255 characters" :=
  ⟨by decide, by decide, by decide, by decide,
    (claim10_raw_length 1 ('a' :: List.replicate 300 ' ') [ 'c' ] [ 'd' ]).1
      (by decide) (by decide) (by decide) (by decide)⟩

theorem Heap.read_write_ne (h : Heap) (a b : Nat) (p : Post) (hab : a ≠ b) :
    (h.write b p).read a = h.read a := by
  simp only [Heap.write, Heap.read]
  rw [if_neg hab]

theorem Heap.read_alloc_of_lt (h : Heap) (v : Post) (a : Nat)
    (ha : a < h.next) : ((h.alloc v).2).read a = h.read a := by
  simp only [Heap.alloc, Heap.read]
  rw [if_neg (by omega)]

theorem Heap.alloc_next (h : Heap) (v : Post) :
    ((h.alloc v).2).next = h.next + 1 := rfl

theorem Heap.alloc_fst (h : Heap) (v : Post) :
    (h.alloc v).1 = h.next := rfl

theorem Heap.allocList_next (h : Heap) (vs : List Post) :
    ((h.allocList vs).2).next = h.next + vs.length := by
  induction vs generalizing h with
  | nil => rfl
  | cons v rest ih =>
    show (((h.alloc v).2).allocList rest).2.next = h.next + (rest.length + 1)
    rw [ih ((h.alloc v).2), Heap.alloc_next]
    omega

theorem Heap.allocList_mem_bound (h : Heap) (vs : List Post) (a : Nat)
    (ha : a ∈ (h.allocList vs).1) :
    h.next ≤ a ∧ a < h.next + vs.length := by
  induction vs generalizing h with
  | nil => exact absurd ha (List.not_mem_nil a)
  | cons v rest ih =>
    rcases List.mem_cons.mp ha with h1 | h1
    · rw [h1]
      show h.next ≤ h.next ∧ h.next < h.next + (rest.length + 1)
      omega
    · have := ih ((h.alloc v).2) h1
      rw [Heap.alloc_next] at this
      show h.next ≤ a ∧ a < h.next + (rest.length + 1)
      omega

theorem goodConfig_PtrGetByID (cfg : Config) (id : Int)
    (h : GoodConfig cfg) : GoodConfig (PtrGetByID cfg id).2 := by
  obtain ⟨hi, hc, hd⟩ := h
  simp only [PtrGetByID]
  rcases hl : mapLookup cfg.repo.posts id with _ | a
  · exact ⟨hi, hc, hd⟩
  · refine ⟨fun pr hpr => ?_, fun b hb => ?_, fun pr hpr hmem => ?_⟩
    · have := hi pr hpr
      show Prod.snd pr < cfg.heap.next + 1
      omega
    · rcases List.mem_cons.mp hb with h1 | h1
      · rw [h1]
        show cfg.heap.next < cfg.heap.next + 1
        omega
      · have := hc b h1
        show b < cfg.heap.next + 1
        omega
    · rcases List.mem_cons.mp hmem with h1 | h1
      · have := hi pr hpr
        rw [Heap.alloc_fst] at h1
        omega
      · exact hd pr hpr h1

theorem goodConfig_PtrGetAll (cfg : Config)
    (h : GoodConfig cfg) : GoodConfig (PtrGetAll cfg).2 := by
  obtain ⟨hi, hc, hd⟩ := h
  simp only [PtrGetAll]
  have hnext := Heap.allocList_next cfg.heap
    (List.insertionSort idLE (cfg.repo.posts.map (fun pr => cfg.heap.read pr.2)))
  refine ⟨fun pr hpr => ?_, fun b hb => ?_, fun pr hpr hmem => ?_⟩
  · have := hi pr hpr
    rw [hnext]
    omega
  · rw [hnext]
    rcases List.mem_append.mp hb with h1 | h1
    · have := Heap.allocList_mem_bound cfg.heap _ b h1
      omega
    · have := hc b h1
      omega
  · rcases List.mem_append.mp hmem with h1 | h1
    · have h2 := Heap.allocList_mem_bound cfg.heap _ _ h1
      have := hi pr hpr
      omega
    · exact hd pr hpr h1

theorem goodConfig_PtrCreatePost (cfg : Config) (t c a : Str)
    (h : GoodConfig cfg) : GoodConfig (PtrCreatePost cfg t c a).2 := by
  obtain ⟨hi, hc, hd⟩ := h
  simp only [PtrCreatePost]
  rcases hn : NewPost cfg.repo.nextID t c a with e | post
  · exact ⟨hi, hc, hd⟩
  · refine ⟨fun pr hpr => ?_, fun b hb => ?_, fun pr hpr hmem => ?_⟩
    · rcases mem_mapInsert _ _ _ _ hpr with h1 | h1
      · rw [h1]
        show cfg.heap.next < cfg.heap.next + 1 + 1
        omega
      · have := hi pr h1
        show Prod.snd pr < cfg.heap.next + 1 + 1
        omega
    · rcases List.mem_cons.mp hb with h1 | h1
      · rw [h1]
        show cfg.heap.next + 1 < cfg.heap.next + 1 + 1
        omega
      · have := hc b h1
        show b < cfg.heap.next + 1 + 1
        omega
    · rcases mem_mapInsert _ _ _ _ hpr with h1 | h1
      · rcases List.mem_cons.mp hmem with h2 | h2
        · rw [h1] at h2
          exact absurd h2 (by show ¬cfg.heap.next = cfg.heap.next + 1; omega)
        · have := hc (Prod.snd pr) h2
          rw [h1] at this
          exact absurd this (by show ¬cfg.heap.next < cfg.heap.next; omega)
      · rcases List.mem_cons.mp hmem with h2 | h2
        · have := hi pr h1
          rw [h2, Heap.alloc_fst, Heap.alloc_next] at this
          exact absurd this (by omega)
        · exact hd pr h1 h2

theorem goodConfig_PtrCreate (cfg : Config) (ca : Nat)
    (h : GoodConfig cfg) : GoodConfig (PtrCreate cfg ca) := by
  obtain ⟨hi, hc, hd⟩ := h
  simp only [PtrCreate]
  rcases hl : mapLookup cfg.repo.posts (cfg.heap.read ca).id with _ | q
  · refine ⟨fun pr hpr => ?_, fun b hb => ?_, fun pr hpr hmem => ?_⟩
    · rcases mem_mapInsert _ _ _ _ hpr with h1 | h1
      · rw [h1]
        show cfg.heap.next < cfg.heap.next + 1
        omega
      · have := hi pr h1
        show Prod.snd pr < cfg.heap.next + 1
        omega
    · have := hc b hb
      show b < cfg.heap.next + 1
      omega
    · rcases mem_mapInsert _ _ _ _ hpr with h1 | h1
      · have := hc (Prod.snd pr) hmem
        rw [h1] at this
        exact absurd this (by show ¬cfg.heap.next < cfg.heap.next; omega)
      · exact hd pr h1 hmem
  · exact ⟨hi, hc, hd⟩

theorem goodConfig_PtrUpdate (cfg : Config) (id : Int) (ca : Nat)
    (h : GoodConfig cfg) : GoodConfig (PtrUpdate cfg id ca) := by
  obtain ⟨hi, hc, hd⟩ := h
  simp only [PtrUpdate]
  rcases hl : mapLookup cfg.repo.posts id with _ | q
  · exact ⟨hi, hc, hd⟩
  · refine ⟨fun pr hpr => ?_, fun b hb => ?_, fun pr hpr hmem => ?_⟩
    · rcases mem_mapInsert _ _ _ _ hpr with h1 | h1
      · rw [h1]
        show cfg.heap.next < cfg.heap.next + 1
        omega
      · have := hi pr h1
        show Prod.snd pr < cfg.heap.next + 1
        omega
    · have := hc b hb
      show b < cfg.heap.next + 1
      omega
    · rcases mem_mapInsert _ _ _ _ hpr with h1 | h1
      · have := hc (Prod.snd pr) hmem
        rw [h1] at this
        exact absurd this (by show ¬cfg.heap.next < cfg.heap.next; omega)
      · exact hd pr h1 hmem

theorem goodConfig_PtrDelete (cfg : Config) (id : Int)
    (h : GoodConfig cfg) : GoodConfig (PtrDelete cfg id) := by
  obtain ⟨hi, hc, hd⟩ := h
  simp only [PtrDelete]
  rcases hl : mapLookup cfg.repo.posts id with _ | q
  · exact ⟨hi, hc, hd⟩
  · exact ⟨fun pr hpr => hi pr (mem_of_mem_mapErase _ _ _ hpr), hc,
      fun pr hpr => hd pr (mem_of_mem_mapErase _ _ _ hpr)⟩

theorem goodConfig_PtrLoadStep (cfg : Config) (ca : Nat)
    (h : GoodConfig cfg) : GoodConfig (PtrLoadStep cfg ca) := by
  obtain ⟨hi, hc, hd⟩ := h
  simp only [PtrLoadStep]
  refine ⟨fun pr hpr => ?_, fun b hb => ?_, fun pr hpr hmem => ?_⟩
  · rcases mem_mapInsert _ _ _ _ hpr with h1 | h1
    · rw [h1]
      show cfg.heap.next < cfg.heap.next + 1
      omega
    · have := hi pr h1
      show Prod.snd pr < cfg.heap.next + 1
      omega
  · have := hc b hb
    show b < cfg.heap.next + 1
    omega
  · rcases mem_mapInsert _ _ _ _ hpr with h1 | h1
    · have := hc (Prod.snd pr) hmem
      rw [h1] at this
      exact absurd this (by show ¬cfg.heap.next < cfg.heap.next; omega)
    · exact hd pr h1 hmem

theorem goodConfig_PtrLoadData (cfg : Config) (cas : List Nat)
    (h : GoodConfig cfg) : GoodConfig (PtrLoadData cfg cas) := by
  show GoodConfig (cas.foldl PtrLoadStep cfg)
  induction cas generalizing cfg with
  | nil => exact h
  | cons ca rest ih => exact ih (PtrLoadStep cfg ca) (goodConfig_PtrLoadStep cfg ca h)

theorem goodConfig_PtrMutate (cfg : Config) (a : Nat) (p : Post)
    (h : GoodConfig cfg) : GoodConfig (PtrMutate cfg a p) := by
  obtain ⟨hi, hc, hd⟩ := h
  simp only [PtrMutate]
  by_cases hmem : a ∈ cfg.caller
  · rw [if_pos hmem]
    exact ⟨hi, hc, hd⟩
  · rw [if_neg hmem]
    exact ⟨hi, hc, hd⟩

theorem goodConfig_cstep (cfg : Config) (op : COp)
    (h : GoodConfig cfg) : GoodConfig (cstep cfg op) := by
  cases op with
  | getByID id => exact goodConfig_PtrGetByID cfg id h
  | getAll => exact goodConfig_PtrGetAll cfg h
  | createGen t c a => exact goodConfig_PtrCreatePost cfg t c a h
  | createExp ca => exact goodConfig_PtrCreate cfg ca h
  | updateOp id ca => exact goodConfig_PtrUpdate cfg id ca h
  | deleteOp id => exact goodConfig_PtrDelete cfg id h
  | loadData cas => exact goodConfig_PtrLoadData cfg cas h
  | mutate a p => exact goodConfig_PtrMutate cfg a p h

theorem view_PtrMutate (cfg : Config) (a : Nat) (p : Post)
    (h : GoodConfig cfg) : view (PtrMutate cfg a p) = view cfg := by
  obtain ⟨hi, hc, hd⟩ := h
  simp only [PtrMutate]
  by_cases hmem : a ∈ cfg.caller
  · rw [if_pos hmem]
    funext id
    simp only [view]
    rcases hl : mapLookup cfg.repo.posts id with _ | ai
    · rfl
    · have hint : (id, ai) ∈ cfg.repo.posts := mapLookup_mem _ _ _ hl
      have hne : ai ≠ a := fun hcontra => hd (id, ai) hint (hcontra ▸ hmem)
      show some ((cfg.heap.write a p).read ai) = some (cfg.heap.read ai)
      rw [Heap.read_write_ne _ _ _ _ hne]
  · rw [if_neg hmem]

theorem view_getByID_eq (cfg : Config) (id0 : Int) (a1 : Nat) (cfg2 : Config)
    (h : GoodConfig cfg) (hg : PtrGetByID cfg id0 = (some a1, cfg2)) :
    view cfg2 = view cfg := by
  obtain ⟨hi, hc, hd⟩ := h
  simp only [PtrGetByID] at hg
  rcases hl : mapLookup cfg.repo.posts id0 with _ | a
  · rw [hl] at hg
    exact absurd (congrArg Prod.fst hg) (by simp)
  · rw [hl] at hg
    have hg2 : (some (cfg.heap.alloc (cfg.heap.read a)).1,
        (⟨(cfg.heap.alloc (cfg.heap.read a)).2, cfg.repo,
          (cfg.heap.alloc (cfg.heap.read a)).1 :: cfg.caller⟩ : Config)) =
        (some a1, cfg2) := hg
    have hcfg2 : cfg2 = ⟨(cfg.heap.alloc (cfg.heap.read a)).2, cfg.repo,
        (cfg.heap.alloc (cfg.heap.read a)).1 :: cfg.caller⟩ :=
      (Prod.mk.inj hg2).2.symm
    rw [hcfg2]
    funext idx
    simp only [view]
    rcases hlx : mapLookup cfg.repo.posts idx with _ | ax
    · rfl
    · have hax : (idx, ax) ∈ cfg.repo.posts := mapLookup_mem _ _ _ hlx
      have hlt := hi (idx, ax) hax
      show some (((cfg.heap.alloc (cfg.heap.read a)).2).read ax) =
        some (cfg.heap.read ax)
      rw [Heap.read_alloc_of_lt _ _ _ hlt]

/-- C8: pointer-level copy isolation.  From any configuration satisfying
the store's pointer discipline (all stored and handed-out addresses are
allocated, and the store never shares an address with the caller), (a)
every operation preserves that discipline — in particular it holds in
the initial configuration, hence along every trace; (b) a caller
mutation through any pointer it holds (received from `GetByID`,
`GetAll`, or `CreatePost`, or passed into `Create`, `Update`, or
`LoadData`, all of which copy) never changes what the store will answer
for any id; and (c) in particular, mutating the post returned by
`GetByID` does not change what a later `GetByID` of the same id
returns. -/
theorem claim8_copy_isolation :
    GoodConfig initConfig ∧
    (∀ cfg op, GoodConfig cfg → GoodConfig (cstep cfg op)) ∧
    (∀ cfg a p, GoodConfig cfg → view (cstep cfg (COp.mutate a p)) = view cfg) ∧
    (∀ cfg id a1 cfg2 p2, GoodConfig cfg →
      PtrGetByID cfg id = (some a1, cfg2) →
      view (PtrMutate cfg2 a1 p2) = view cfg) := by
  refine ⟨?_, goodConfig_cstep, ?_, ?_⟩
  · exact ⟨fun pr hpr => absurd hpr (List.not_mem_nil _),
      fun a ha => absurd ha (List.not_mem_nil _),
      fun pr hpr => absurd hpr (List.not_mem_nil _)⟩
  · intro cfg a p h
    exact view_PtrMutate cfg a p h
  · intro cfg id a1 cfg2 p2 h hg
    have h2 : GoodConfig cfg2 := by
      have h3 := goodConfig_PtrGetByID cfg id h
      rw [congrArg Prod.snd hg] at h3
      exact h3
    rw [view_PtrMutate cfg2 a1 p2 h2, view_getByID_eq cfg id a1 cfg2 h hg]

/-- C8, witness: after a generated-ID creation from the initial
configuration, the caller holds address 1 (the returned copy); writing
any post through it leaves the store's answers unchanged. -/
theorem claim8_witness :
    GoodConfig (cstep initConfig (COp.createGen [ 't' ] [ 'c' ] [ 'a' ])) ∧
    view (cstep (cstep initConfig (COp.createGen [ 't' ] [ 'c' ] [ 'a' ]))
        (COp.mutate 1 ⟨9, [ 'q' ], [ 'q' ], [ 'q' ]⟩)) =
      view (cstep initConfig (COp.createGen [ 't' ] [ 'c' ] [ 'a' ])) :=
  ⟨by decide,
    claim8_copy_isolation.2.2.1 (cstep initConfig (COp.createGen [ 't' ] [ 'c' ] [ 'a' ]))
      1 ⟨9, [ 'q' ], [ 'q' ], [ 'q' ]⟩ (by decide)⟩
